import Mathlib

/-!
Verification of the recipe reconciliation engine (query assignments)
of the mealie-addons repository.

The definitions below are a shallow embedding of the Go code in
`query_assignment.go` (and the collaborator declarations in `mealie.go`):
Go slices become `List`, Go maps become association lists or lookup
functions with the same key semantics (a map is a finite set of keys;
writing an existing key overwrites, `delete` removes the key), `error`
returns become `Except String`, and the external HTTP calls performed by
the `mealie` client become oracle functions packaged in a structure.
Context creation (`context.WithTimeout`) is modelled by a counter that
allocates a fresh context identifier at exactly the program points where
the Go code calls `context.WithTimeout`, and every external call is
recorded as an event carrying the identifier of the context it was
issued under.
-/

namespace MealieAddons

/-- The `organiser` struct of `mealie.go` (a taxonomy term: a category
or a tag).  `kind` is the unexported field set by `getOrganisers`. -/
structure organiser where
  ID : String
  Name : String
  Slug : String
  kind : String
deriving DecidableEq

/-- The `slug` struct of `mealie.go` as used for retention-map keys
(`map[slug]bool` in Go requires a comparable struct). -/
structure slug where
  Slug : String
deriving DecidableEq

/-- Modelled from the spec: the Recipe record of §3 restricted to the
fields the updater touches (slug, category collection, tag collection).
The revision of the `recipe` struct that matches the `updateSlice` call
in `query_assignment.go` (collections of `organiser` values, as forced
by `indexedSlice(categoriesMap, ...)`) is not under `src/`. -/
structure recipe where
  Slug : String
  Categories : List organiser
  Tags : List organiser
deriving DecidableEq

/-- The `queryAssignmentData` struct of `query_assignment.go`. -/
structure queryAssignmentData where
  Set : List String
  Unset : List String
deriving DecidableEq

/-- The `queryAssignmentQuery` struct of `query_assignment.go`.  The
`Params` map is modelled as an association list of key/value pairs. -/
structure queryAssignmentQuery where
  Params : List (String × String)
  Mode : String
deriving DecidableEq

/-- The `queryAssignment` struct of `query_assignment.go`. -/
structure queryAssignment where
  Queries : List queryAssignmentQuery
  Categories : queryAssignmentData
  Tags : queryAssignmentData
deriving DecidableEq

/-- The `queryAssignments` struct of `query_assignment.go`. -/
structure queryAssignments where
  RepeatSecs : Int
  TimeoutSecs : Int
  Assignments : List queryAssignment
deriving DecidableEq

section UpdateSliceDefs

variable {T : Type} [DecidableEq T]

/-- One step of building the Go map `asMap` in `updateSlice`: setting
`asMap[x] = true` adds the key `x` when absent and is a no-op when the
key is already present.  The Go map is modelled as its key list (all
stored values are `true`), kept duplicate-free by construction. -/
def insertKey (l : List T) (x : T) : List T :=
  if x ∈ l then l else l.concat x

/-- One step of the removal loop in `updateSlice`: `delete(asMap, x)`
removes the key `x` when present and is a no-op otherwise. -/
def removeKey (l : List T) (x : T) : List T :=
  l.filter (fun y => decide (y ≠ x))

/-- The `updateSlice` generic function of `query_assignment.go`
(lines 51-76): build a set from `original`, insert every element of
`add`, record whether the size grew, delete every element of `rem`,
record whether the size shrank, and return the resulting key set
together with `wasChanged`. -/
def updateSlice (original add rem : List T) : List T × Bool :=
  let asMap0 := original.foldl insertKey []
  let asMap1 := add.foldl insertKey asMap0
  let changedByAdd : Bool := asMap0.length != asMap1.length
  let asMap2 := rem.foldl removeKey asMap1
  let changedByRemove : Bool := asMap1.length != asMap2.length
  (asMap2, changedByAdd || changedByRemove)

end UpdateSliceDefs

/-- Modelled from the spec: the Recipe Updater contract of §4.6 taken
literally with its name-equality reading —
`new = (current ∪ resolved(set_names)) \ resolved(unset_names)` where
membership is decided by comparing the `Name` fields only.  Defined for
comparison with `updateSlice`, which the code actually uses. -/
def updateByNameSpec (original add rem : List organiser) : List organiser :=
  (original ++ add.filter
      (fun x => original.all (fun y => decide (y.Name ≠ x.Name)))).filter
    (fun x => rem.all (fun y => decide (y.Name ≠ x.Name)))

/-- The `indexedSlice` function of `query_assignment.go` (lines 78-86):
look every index up in the map, keeping only the hits.  The Go map
`map[string]organiser` is modelled as its lookup function. -/
def indexedSlice (myMap : String → Option organiser) (indices : List String) :
    List organiser :=
  indices.filterMap myMap

/-- The name index built by the assignment loop (lines 119-124 /
137-142): iterating the fetched organisers and storing
`theMap[o.Name] = o`, so a later organiser with the same name
overwrites an earlier one. -/
def buildIndex (orgs : List organiser) : String → Option organiser :=
  orgs.foldl (fun f o => fun n => if n = o.Name then some o else f n)
    (fun _ => none)

/-- The abstraction of the `mealie` client consumed by the assignment
loop: the three external operations it calls, each returning either a
result or an error, as declared in `mealie.go`. -/
structure mealie where
  getOrganisers : String → Except String (List organiser)
  getSlugs : List (String × String) → Except String (List slug)
  getRecipe : String → Except String recipe

/-- One external call of a cycle, tagged with the identifier of the
`context.WithTimeout` context it was issued under.  A fresh identifier
is allocated at exactly the program points where the Go code calls
`context.WithTimeout`. -/
inductive extCall where
  | fetchTaxonomy (kind : String) (ctx : Nat)
  | searchQuery (params : List (String × String)) (ctx : Nat)
  | fetchRecipe (s : String) (ctx : Nat)
  | writeRecipe (r : recipe) (ctx : Nat)
deriving DecidableEq

/-- The context identifier an external call was issued under. -/
def extCall.ctxOf : extCall → Nat
  | .fetchTaxonomy _ c => c
  | .searchQuery _ c => c
  | .fetchRecipe _ c => c
  | .writeRecipe _ c => c

/-- Whether an external call is a recipe-search (query) call. -/
def extCall.isSearch : extCall → Bool
  | .searchQuery _ _ => true
  | _ => false

/-- Whether an external call is a recipe write-back. -/
def extCall.isWrite : extCall → Bool
  | .writeRecipe _ _ => true
  | _ => false

/-- The retention map `recipeSlugsRetention : map[slug]bool`, modelled
as an association list whose key list is duplicate-free by
construction. -/
abbrev retMap := List (slug × Bool)

/-- `recipeSlugsRetention[k] = v`: overwrite the binding when the key
is present, append a new binding otherwise (Go map update). -/
def setPair (m : retMap) (k : slug) (v : Bool) : retMap :=
  if k ∈ m.map Prod.fst then
    m.map (fun p => if p.1 = k then (k, v) else p)
  else m ++ [(k, v)]

/-- Go map read: the value bound to `k`, if any. -/
def retLookup (m : retMap) (k : slug) : Option Bool :=
  match m with
  | [] => none
  | p :: rest => if p.1 = k then some p.2 else retLookup rest k

/-- Lines 253-258 of `query_assignment.go`: collect the slugs whose
retention value is `true`. -/
def resolveRetention (m : retMap) : List slug :=
  (m.filter (fun p => p.2)).map Prod.fst

/-- The inner loop of an `add`/`remove` query (lines 225-233): set the
retention value of every matched slug to `v`. -/
def applyFound (m : retMap) (found : List slug) (v : Bool) : retMap :=
  found.foldl (fun mm s => setPair mm s v) m

/-- The query loop of `launchAssignmentLoop` (lines 196-251): process
the queries in declared order under the single context `c` created for
the whole loop, issuing one search call per `add`/`remove` query,
treating a failed search as matching nothing, and ignoring queries in
mode `skip` or any unknown mode.  Returns the final retention map and
the trace of search calls. -/
def runQueries (st : mealie) (c : Nat) :
    retMap → List queryAssignmentQuery → retMap × List extCall
  | m, [] => (m, [])
  | m, q :: rest =>
    if q.Mode = "add" ∨ q.Mode = "remove" then
      match st.getSlugs q.Params with
      | Except.error _ =>
          let r := runQueries st c m rest
          (r.1, extCall.searchQuery q.Params c :: r.2)
      | Except.ok found =>
          let r := runQueries st c (applyFound m found (decide (q.Mode = "add"))) rest
          (r.1, extCall.searchQuery q.Params c :: r.2)
    else runQueries st c m rest

/-- Modelled from the spec: the last-write-wins step of §3/§4.4 — a
query in mode `add` or `remove` whose search succeeds and matches `s`
overwrites the retention decision for `s`; every other query leaves it
unchanged.  Used to compare the code's retention map against the
spec's description. -/
def lwwStep (st : mealie) (s : slug) (acc : Option Bool)
    (q : queryAssignmentQuery) : Option Bool :=
  if q.Mode = "add" ∨ q.Mode = "remove" then
    match st.getSlugs q.Params with
    | Except.ok found => if s ∈ found then some (decide (q.Mode = "add")) else acc
    | Except.error _ => acc
  else acc

/-- Modelled from the spec: the retention decision for `s` after the
whole query list, per the last-write-wins description. -/
def lastWriteWins (st : mealie) (qs : List queryAssignmentQuery) (s : slug) :
    Option Bool :=
  qs.foldl (lwwStep st s) none

/-- The search calls issued while evaluating a query list: one per
`add`/`remove` query, all under the shared context `c`, independent of
the retention map being built. -/
def queryEvents (st : mealie) (c : Nat) : List queryAssignmentQuery → List extCall
  | [] => []
  | q :: rest =>
    if q.Mode = "add" ∨ q.Mode = "remove" then
      extCall.searchQuery q.Params c :: queryEvents st c rest
    else queryEvents st c rest

/-- The per-recipe update of `launchAssignmentLoop` (lines 284-294):
apply `updateSlice` to the categories and to the tags of a fetched
recipe, resolving the assignment's set/unset name lists through the
taxonomy indexes.  Returns the updated recipe and the two `changed`
booleans. -/
def processRecipe (catIdx tagIdx : String → Option organiser)
    (a : queryAssignment) (r : recipe) : recipe × Bool × Bool :=
  let uc := updateSlice r.Categories
    (indexedSlice catIdx a.Categories.Set)
    (indexedSlice catIdx a.Categories.Unset)
  let ut := updateSlice r.Tags
    (indexedSlice tagIdx a.Tags.Set)
    (indexedSlice tagIdx a.Tags.Unset)
  ({ r with Categories := uc.1, Tags := ut.1 }, uc.2, ut.2)

/-- The per-recipe loop of `launchAssignmentLoop` (lines 269-303): one
fresh context per recipe fetch, skip on fetch error, and — only when a
`changed` boolean is set — one further fresh context for the single
write-back call carrying the updated recipe.  Threads the context
counter and returns it with the trace of calls. -/
def runRecipes (st : mealie) (catIdx tagIdx : String → Option organiser)
    (a : queryAssignment) : Nat → List slug → Nat × List extCall
  | ctr, [] => (ctr, [])
  | ctr, s :: rest =>
    match st.getRecipe s.Slug with
    | Except.error _ =>
        let rr := runRecipes st catIdx tagIdx a (ctr + 1) rest
        (rr.1, extCall.fetchRecipe s.Slug ctr :: rr.2)
    | Except.ok r =>
        let pr := processRecipe catIdx tagIdx a r
        if pr.2.1 || pr.2.2 then
          let rr := runRecipes st catIdx tagIdx a (ctr + 2) rest
          (rr.1, extCall.fetchRecipe s.Slug ctr ::
            extCall.writeRecipe pr.1 (ctr + 1) :: rr.2)
        else
          let rr := runRecipes st catIdx tagIdx a (ctr + 1) rest
          (rr.1, extCall.fetchRecipe s.Slug ctr :: rr.2)

/-- The per-assignment validation of `launchAssignmentLoop`
(lines 150-194): the assignment runs iff every name in its four
set/unset lists occurs in the fetched category resp. tag name list
(`slices.Contains`); any missing name sets `skipThis`. -/
def validateAssignment (catNames tagNames : List String)
    (a : queryAssignment) : Bool :=
  a.Categories.Set.all (fun c => catNames.contains c) &&
  a.Categories.Unset.all (fun c => catNames.contains c) &&
  a.Tags.Set.all (fun t => tagNames.contains t) &&
  a.Tags.Unset.all (fun t => tagNames.contains t)

/-- One assignment inside a cycle (lines 149-304): skip entirely when
validation fails; otherwise allocate one context for the whole query
loop, evaluate the queries, resolve the retention map, and process
every retained recipe. -/
def runAssignment (st : mealie) (catNames tagNames : List String)
    (catIdx tagIdx : String → Option organiser) (ctr : Nat)
    (a : queryAssignment) : Nat × List extCall :=
  if validateAssignment catNames tagNames a then
    let rq := runQueries st ctr [] a.Queries
    let rr := runRecipes st catIdx tagIdx a (ctr + 1) (resolveRetention rq.1)
    (rr.1, rq.2 ++ rr.2)
  else (ctr, [])

/-- All assignments of a cycle in declared order, threading the
context counter; yields one call trace per assignment. -/
def runAssignments (st : mealie) (catNames tagNames : List String)
    (catIdx tagIdx : String → Option organiser) :
    Nat → List queryAssignment → List (List extCall)
  | _, [] => []
  | ctr, a :: rest =>
      let ra := runAssignment st catNames tagNames catIdx tagIdx ctr a
      ra.2 :: runAssignments st catNames tagNames catIdx tagIdx ra.1 rest

/-- The per-assignment call traces of one cycle, after a successful
taxonomy snapshot: contexts 0 and 1 are consumed by the two taxonomy
fetches, so assignments start at context 2. -/
def cycleTraces (st : mealie) (cats tags : List organiser)
    (asgs : List queryAssignment) : List (List extCall) :=
  runAssignments st (cats.map organiser.Name) (tags.map organiser.Name)
    (buildIndex cats) (buildIndex tags) 2 asgs

/-- One full cycle of the assignment loop (lines 106-305): fetch both
taxonomies under fresh contexts 0 and 1; if either fetch fails
(`skipAll`), perform nothing else; otherwise run every assignment. -/
def runCycle (st : mealie) (asgs : List queryAssignment) : List extCall :=
  extCall.fetchTaxonomy "categories" 0 :: extCall.fetchTaxonomy "tags" 1 ::
    (match st.getOrganisers "categories", st.getOrganisers "tags" with
     | Except.ok cats, Except.ok tags => (cycleTraces st cats tags asgs).flatten
     | _, _ => [])

/-- Line 307 of `query_assignment.go`:
`nextWaitTime = max(repeatTime-timePassed, 0)` (durations as
nanosecond counts). -/
def nextWaitTime (repeatTime timePassed : Int) : Int :=
  max (repeatTime - timePassed) 0

/-- One iteration of the scheduler loop (lines 106-308): run a cycle,
then compute the wait before the next cycle from the cycle's duration.
The iteration always returns (the loop never aborts): its result is
the cycle's call trace and the next wait. -/
def loopIteration (st : mealie) (asgs : List queryAssignment)
    (repeatTime timePassed : Int) : List extCall × Int :=
  (runCycle st asgs, nextWaitTime repeatTime timePassed)

/-- The outcome of `launchAssignmentLoop`'s synchronous part
(lines 88-100, 310-312): the returned quit-channel handle, the
returned error, and how many background loops were started. -/
structure launchResult where
  handle : Option Nat
  err : Option String
  loopsStarted : Nat
deriving DecidableEq

/-- Lines 88-100 and 310-312 of `query_assignment.go`: with no
configured assignments return `(nil, nil)` and start nothing;
otherwise create the quit channel, start the background loop, and
return the channel with a nil error. -/
def launchAssignmentLoop (qa : queryAssignments) : launchResult :=
  if qa.Assignments.isEmpty then ⟨none, none, 0⟩ else ⟨some 0, none, 1⟩

/-- One page of `/api/organizers/<kind>` as decoded in `mealie.go`. -/
structure organisersResponse where
  Items : List organiser
  Pages : Int
deriving DecidableEq

/-- The pagination loop of `getOrganisers` in `mealie.go`
(lines 405-460): starting from page 1 with `lastPage = 10`, fetch
pages while `page <= lastPage`, abort with the error of the first
failing page fetch, and otherwise accumulate the items, taking each
response's page count as the new `lastPage`.  `fuel` bounds the
recursion; the loop itself never produces the fuel-exhaustion error,
which only totalises the function. -/
def getOrganisersLoop (resp : Int → Except String organisersResponse) :
    Nat → Int → Int → List organiser → Except String (List organiser)
  | 0, _, _, _ => Except.error "out of fuel"
  | fuel + 1, page, lastPage, acc =>
    if page ≤ lastPage then
      match resp page with
      | Except.error e => Except.error e
      | Except.ok r => getOrganisersLoop resp fuel (page + 1) r.Pages (acc ++ r.Items)
    else Except.ok acc

/-- A category named `a` as the taxonomy returns it. -/
def orgA : organiser := ⟨"1", "a", "a", "categories"⟩

/-- A term also named `a` but with a different identity (different id,
slug and kind), as a recipe's stored collection may carry it. -/
def recCatA : organiser := ⟨"7", "a", "s1", ""⟩

/-- An assignment that both sets and unsets category `a`. -/
def asgSetUnsetA : queryAssignment := ⟨[], ⟨["a"], ["a"]⟩, ⟨[], []⟩⟩

/-- An assignment that only unsets category `a`. -/
def asgUnsetA : queryAssignment := ⟨[], ⟨[], ["a"]⟩, ⟨[], []⟩⟩

/-- An assignment that only sets category `a` (disjoint set/unset). -/
def asgSetA : queryAssignment := ⟨[], ⟨["a"], []⟩, ⟨[], []⟩⟩

/-- A first `add`-mode query. -/
def qAdd1 : queryAssignmentQuery := ⟨[("f", "1")], "add"⟩

/-- A second `add`-mode query with different parameters. -/
def qAdd2 : queryAssignmentQuery := ⟨[("f", "2")], "add"⟩

/-- An assignment with two `add`-mode queries and no set/unset lists. -/
def asgTwoQueries : queryAssignment := ⟨[qAdd1, qAdd2], ⟨[], []⟩, ⟨[], []⟩⟩

/-- A store whose calls all succeed with empty results (recipes are
fetched with empty collections). -/
def stOk : mealie :=
  ⟨fun _ => Except.ok [], fun _ => Except.ok [], fun s => Except.ok ⟨s, [], []⟩⟩

/-- A `remove`-mode query with the second parameter set. -/
def qRem2 : queryAssignmentQuery := ⟨[("f", "2")], "remove"⟩

/-- A store where the first query matches slugs `s1` and `s2` and the
second query matches exactly `s2`. -/
def stAB : mealie :=
  ⟨fun _ => Except.ok [],
   fun p =>
     if p = [("f", "1")] then Except.ok [⟨"s1"⟩, ⟨"s2"⟩]
     else if p = [("f", "2")] then Except.ok [⟨"s2"⟩]
     else Except.ok [],
   fun s => Except.ok ⟨s, [], []⟩⟩

/-- A store whose taxonomy fetches always fail. -/
def stErr : mealie :=
  ⟨fun _ => Except.error "boom", fun _ => Except.ok [],
   fun s => Except.ok ⟨s, [], []⟩⟩

/-- A store where the query of `qAdd1` fails and the query of `qAdd2`
matches slug `s3`. -/
def stFail1 : mealie :=
  ⟨fun _ => Except.ok [],
   fun p =>
     if p = [("f", "1")] then Except.error "down"
     else if p = [("f", "2")] then Except.ok [⟨"s3"⟩]
     else Except.ok [],
   fun s => Except.ok ⟨s, [], []⟩⟩

/-- An assignment whose tag set list references the unknown name `zz`. -/
def asgBadTag : queryAssignment := ⟨[qAdd1], ⟨[], []⟩, ⟨["zz"], []⟩⟩

section UpdateSliceLemmas

variable {T : Type} [DecidableEq T]

theorem mem_insertKey {l : List T} {a x : T} :
    x ∈ insertKey l a ↔ x ∈ l ∨ x = a := by
  by_cases h : a ∈ l
  · rw [insertKey, if_pos h]
    constructor
    · exact Or.inl
    · rintro (hx | rfl)
      · exact hx
      · exact h
  · rw [insertKey, if_neg h, List.concat_eq_append, List.mem_append,
      List.mem_singleton]

theorem mem_foldl_insertKey {l : List T} {m : List T} {x : T} :
    x ∈ l.foldl insertKey m ↔ x ∈ m ∨ x ∈ l := by
  induction l generalizing m with
  | nil => simp
  | cons a l ih =>
      simp only [List.foldl_cons, ih, mem_insertKey, List.mem_cons]
      tauto

theorem nodup_insertKey {l : List T} {a : T} (h : l.Nodup) :
    (insertKey l a).Nodup := by
  by_cases ha : a ∈ l
  · rw [insertKey, if_pos ha]
    exact h
  · rw [insertKey, if_neg ha, List.concat_eq_append]
    refine h.append (List.nodup_singleton a) ?_
    intro x hx hxa
    rw [List.mem_singleton] at hxa
    exact ha (hxa ▸ hx)

theorem nodup_foldl_insertKey {l m : List T} (h : m.Nodup) :
    (l.foldl insertKey m).Nodup := by
  induction l generalizing m with
  | nil => exact h
  | cons a l ih => exact ih (nodup_insertKey h)

theorem length_le_foldl_insertKey {l m : List T} :
    m.length ≤ (l.foldl insertKey m).length := by
  induction l generalizing m with
  | nil => exact Nat.le_refl _
  | cons a l ih =>
      refine Nat.le_trans ?_ (ih (m := insertKey m a))
      unfold insertKey
      split
      · exact Nat.le_refl _
      · simp [List.concat_eq_append]

theorem length_foldl_insertKey_eq_iff {l m : List T} :
    (l.foldl insertKey m).length = m.length ↔ ∀ x ∈ l, x ∈ m := by
  induction l generalizing m with
  | nil => simp
  | cons a l ih =>
      simp only [List.foldl_cons, List.mem_cons]
      by_cases ha : a ∈ m
      · rw [show insertKey m a = m from if_pos ha, ih]
        constructor
        · intro h x hx
          rcases hx with rfl | hx
          · exact ha
          · exact h x hx
        · intro h x hx
          exact h x (Or.inr hx)
      · rw [show insertKey m a = m.concat a from if_neg ha]
        constructor
        · intro h
          exfalso
          have h1 : (m.concat a).length ≤ (l.foldl insertKey (m.concat a)).length :=
            length_le_foldl_insertKey
          rw [h] at h1
          simp [List.concat_eq_append] at h1
        · intro h
          exact absurd (h a (Or.inl rfl)) ha

theorem mem_removeKey {l : List T} {a x : T} :
    x ∈ removeKey l a ↔ x ∈ l ∧ x ≠ a := by
  simp [removeKey]

theorem mem_foldl_removeKey {l m : List T} {x : T} :
    x ∈ l.foldl removeKey m ↔ x ∈ m ∧ x ∉ l := by
  induction l generalizing m with
  | nil => simp
  | cons a l ih =>
      simp only [List.foldl_cons, ih, mem_removeKey, List.mem_cons]
      tauto

theorem length_foldl_removeKey_le {l m : List T} :
    (l.foldl removeKey m).length ≤ m.length := by
  induction l generalizing m with
  | nil => exact Nat.le_refl _
  | cons a l ih =>
      refine Nat.le_trans (ih (m := removeKey m a)) ?_
      exact List.length_filter_le _ _

theorem nodup_foldl_removeKey {l m : List T} (h : m.Nodup) :
    (l.foldl removeKey m).Nodup := by
  induction l generalizing m with
  | nil => exact h
  | cons a l ih => exact ih (h.filter _)

theorem removeKey_of_not_mem {l : List T} {a : T} (h : a ∉ l) :
    removeKey l a = l := by
  unfold removeKey
  refine List.filter_eq_self.2 ?_
  intro x hx
  simp only [decide_eq_true_eq]
  rintro rfl
  exact h hx

theorem length_removeKey_lt {l : List T} {a : T} (h : a ∈ l) :
    (removeKey l a).length < l.length :=
  List.length_filter_lt_length_iff_exists.2 ⟨a, h, by simp⟩

theorem length_foldl_removeKey_lt {l m : List T} {x : T}
    (hxl : x ∈ l) (hxm : x ∈ m) :
    (l.foldl removeKey m).length < m.length := by
  induction l generalizing m with
  | nil => cases hxl
  | cons a l ih =>
      simp only [List.foldl_cons]
      by_cases hax : a ∈ m
      · calc (l.foldl removeKey (removeKey m a)).length
            ≤ (removeKey m a).length := length_foldl_removeKey_le
          _ < m.length := length_removeKey_lt hax
      · have hne : a ≠ x := fun h => hax (h ▸ hxm)
        rcases List.mem_cons.1 hxl with rfl | hxl
        · exact absurd hxm hax
        · rw [removeKey_of_not_mem hax]
          exact ih hxl hxm

theorem length_foldl_removeKey_eq_iff {l m : List T} :
    (l.foldl removeKey m).length = m.length ↔ ∀ x ∈ l, x ∉ m := by
  constructor
  · intro h x hxl hxm
    exact absurd h (Nat.ne_of_lt (length_foldl_removeKey_lt hxl hxm))
  · intro h
    induction l generalizing m with
    | nil => rfl
    | cons a l ih =>
        simp only [List.foldl_cons]
        rw [removeKey_of_not_mem (h a (List.mem_cons_self a l))]
        exact ih (fun x hx => h x (List.mem_cons_of_mem a hx))

/-- Characterisation of the slice returned by `updateSlice`: it is
exactly `(original ∪ add) \ rem` as a set of `T` values (membership
decided by decidable equality on the whole value of type `T`). -/
theorem updateSlice_mem {original add rem : List T} {x : T} :
    x ∈ (updateSlice original add rem).1 ↔
      (x ∈ original ∨ x ∈ add) ∧ x ∉ rem := by
  unfold updateSlice
  simp only [mem_foldl_removeKey, mem_foldl_insertKey, List.not_mem_nil,
    false_or]

/-- The returned slice never holds duplicates (it enumerates the keys
of a Go map). -/
theorem updateSlice_nodup {original add rem : List T} :
    (updateSlice original add rem).1.Nodup :=
  nodup_foldl_removeKey (nodup_foldl_insertKey (nodup_foldl_insertKey List.nodup_nil))

/-- Characterisation of the `wasChanged` boolean computed by
`updateSlice`: it is true iff the addition phase inserted a genuinely
new element, or the removal phase deleted a present one. -/
theorem updateSlice_changed {original add rem : List T} :
    (updateSlice original add rem).2 = true ↔
      (∃ x ∈ add, x ∉ original) ∨ (∃ x ∈ rem, x ∈ original ∨ x ∈ add) := by
  have hm0 : ∀ x : T, x ∈ original.foldl insertKey ([] : List T) ↔ x ∈ original := by
    intro x
    simp [mem_foldl_insertKey]
  have hm1 : ∀ x : T,
      x ∈ add.foldl insertKey (original.foldl insertKey ([] : List T)) ↔
        x ∈ original ∨ x ∈ add := by
    intro x
    rw [mem_foldl_insertKey, hm0]
  have hadd :
      ((original.foldl insertKey ([] : List T)).length ≠
          (add.foldl insertKey (original.foldl insertKey ([] : List T))).length) ↔
        ∃ x ∈ add, x ∉ original := by
    rw [ne_comm, Ne, length_foldl_insertKey_eq_iff]
    push_neg
    simp only [hm0]
  have hrem :
      ((add.foldl insertKey (original.foldl insertKey ([] : List T))).length ≠
          (rem.foldl removeKey
            (add.foldl insertKey (original.foldl insertKey ([] : List T)))).length) ↔
        ∃ x ∈ rem, x ∈ original ∨ x ∈ add := by
    rw [ne_comm, Ne, length_foldl_removeKey_eq_iff]
    push_neg
    simp only [hm1]
  simp only [updateSlice, Bool.or_eq_true, bne_iff_ne]
  rw [hadd, hrem]

/-- When `wasChanged` is false the result is set-equal to the
original collection (no under-reporting of non-changes). -/
theorem updateSlice_mem_of_unchanged {original add rem : List T}
    (h : (updateSlice original add rem).2 = false) :
    ∀ x, x ∈ (updateSlice original add rem).1 ↔ x ∈ original := by
  have h' : ¬ ((updateSlice original add rem).2 = true) := by simp [h]
  rw [updateSlice_changed] at h'
  push_neg at h'
  intro x
  rw [updateSlice_mem]
  constructor
  · rintro ⟨hx | hx, _⟩
    · exact hx
    · exact h'.1 x hx
  · intro hx
    exact ⟨Or.inl hx, fun hr => (h'.2 x hr).1 hx⟩

end UpdateSliceLemmas

theorem retLookup_cons {p : slug × Bool} {rest : retMap} {s : slug} :
    retLookup (p :: rest) s = if p.1 = s then some p.2 else retLookup rest s :=
  rfl

theorem retLookup_map_replace_ne {m : retMap} {k s : slug} {v : Bool}
    (hks : k ≠ s) :
    retLookup (m.map (fun p => if p.1 = k then (k, v) else p)) s =
      retLookup m s := by
  induction m with
  | nil => rfl
  | cons p rest ih =>
      simp only [List.map_cons]
      by_cases hp : p.1 = k
      · rw [if_pos hp, retLookup_cons, retLookup_cons, ih]
        have h1 : ¬ ((k, v).1 = s) := hks
        rw [if_neg h1, if_neg (fun h => hks (hp ▸ h))]
      · rw [if_neg hp, retLookup_cons, retLookup_cons, ih]

theorem retLookup_map_replace_eq {m : retMap} {k : slug} {v : Bool}
    (hk : k ∈ m.map Prod.fst) :
    retLookup (m.map (fun p => if p.1 = k then (k, v) else p)) k = some v := by
  induction m with
  | nil => simp at hk
  | cons p rest ih =>
      simp only [List.map_cons]
      by_cases hp : p.1 = k
      · rw [if_pos hp, retLookup_cons, if_pos rfl]
      · rw [if_neg hp, retLookup_cons, if_neg hp]
        refine ih ?_
        simp only [List.map_cons, List.mem_cons] at hk
        exact hk.resolve_left (fun h => hp h.symm)

theorem retLookup_append_single {m : retMap} {k s : slug} {v : Bool}
    (hk : k ∉ m.map Prod.fst) :
    retLookup (m ++ [(k, v)]) s = if k = s then some v else retLookup m s := by
  induction m with
  | nil =>
      by_cases hks : k = s
      · simp [retLookup, hks]
      · simp [retLookup, hks]
  | cons p rest ih =>
      have hpk : p.1 ≠ k := by
        intro h
        exact hk (by simp [h.symm])
      have hk' : k ∉ rest.map Prod.fst := fun h => hk (List.mem_cons_of_mem _ h)
      rw [List.cons_append, retLookup_cons, retLookup_cons, ih hk']
      by_cases hps : p.1 = s
      · have hks : k ≠ s := fun h => hpk (hps.trans h.symm)
        rw [if_pos hps, if_neg hks, if_pos hps]
      · rw [if_neg hps, if_neg hps]

/-- Go map update semantics of `setPair`: reading key `s` after
writing `v` at key `k` yields `v` when `s = k` and the old value
otherwise. -/
theorem retLookup_setPair {m : retMap} {k s : slug} {v : Bool} :
    retLookup (setPair m k v) s = if k = s then some v else retLookup m s := by
  by_cases hk : k ∈ m.map Prod.fst
  · rw [setPair, if_pos hk]
    by_cases hks : k = s
    · subst hks
      rw [if_pos rfl, retLookup_map_replace_eq hk]
    · rw [if_neg hks, retLookup_map_replace_ne hks]
  · rw [setPair, if_neg hk, retLookup_append_single hk]

theorem keys_setPair {m : retMap} {k : slug} {v : Bool} :
    (setPair m k v).map Prod.fst =
      if k ∈ m.map Prod.fst then m.map Prod.fst else m.map Prod.fst ++ [k] := by
  by_cases hk : k ∈ m.map Prod.fst
  · rw [setPair, if_pos hk, if_pos hk, List.map_map]
    refine List.map_congr_left ?_
    intro p _
    by_cases hp : p.1 = k
    · simp [Function.comp, hp]
    · simp [Function.comp, hp]
  · rw [setPair, if_neg hk, if_neg hk]
    simp

theorem keysNodup_setPair {m : retMap} {k : slug} {v : Bool}
    (h : (m.map Prod.fst).Nodup) :
    ((setPair m k v).map Prod.fst).Nodup := by
  rw [keys_setPair]
  by_cases hk : k ∈ m.map Prod.fst
  · rwa [if_pos hk]
  · rw [if_neg hk]
    refine h.append (List.nodup_singleton k) ?_
    intro x hx hxk
    rw [List.mem_singleton] at hxk
    exact hk (hxk ▸ hx)

theorem resolveRetention_cons {p : slug × Bool} {rest : retMap} :
    resolveRetention (p :: rest) =
      if p.2 = true then p.1 :: resolveRetention rest
      else resolveRetention rest := by
  by_cases hb : p.2 = true
  · simp [resolveRetention, List.filter_cons, hb]
  · simp [resolveRetention, List.filter_cons, hb]

theorem mem_keys_of_mem_resolveRetention {m : retMap} {s : slug}
    (h : s ∈ resolveRetention m) : s ∈ m.map Prod.fst := by
  rcases List.mem_map.1 h with ⟨q, hq, rfl⟩
  exact List.mem_map_of_mem Prod.fst (List.mem_of_mem_filter hq)

/-- With duplicate-free keys, a slug is in the resolved working set
iff its retention value reads `true`. -/
theorem mem_resolveRetention {m : retMap} {s : slug}
    (h : (m.map Prod.fst).Nodup) :
    s ∈ resolveRetention m ↔ retLookup m s = some true := by
  induction m with
  | nil => simp [resolveRetention, retLookup]
  | cons p rest ih =>
      have hrest : (rest.map Prod.fst).Nodup := (List.nodup_cons.1 h).2
      have hp : p.1 ∉ rest.map Prod.fst := (List.nodup_cons.1 h).1
      rw [resolveRetention_cons, retLookup_cons]
      by_cases hps : p.1 = s
      · subst hps
        rw [if_pos rfl]
        by_cases hb : p.2 = true
        · rw [if_pos hb, hb]
          simp
        · have hb' : p.2 = false := by simpa using hb
          rw [if_neg hb, hb']
          constructor
          · intro hmem
            exact absurd (mem_keys_of_mem_resolveRetention hmem) hp
          · intro hval
            exact absurd hval (by simp)
      · rw [if_neg hps, ← ih hrest]
        by_cases hb : p.2 = true
        · rw [if_pos hb]
          constructor
          · intro hmem
            exact (List.mem_cons.1 hmem).resolve_left (fun h1 => hps h1.symm)
          · exact List.mem_cons_of_mem _
        · rw [if_neg hb]

theorem retLookup_applyFound {m : retMap} {found : List slug} {v : Bool}
    {s : slug} :
    retLookup (applyFound m found v) s =
      if s ∈ found then some v else retLookup m s := by
  induction found generalizing m with
  | nil => simp [applyFound]
  | cons f rest ih =>
      show retLookup (applyFound (setPair m f v) rest v) s = _
      rw [ih]
      by_cases hr : s ∈ rest
      · rw [if_pos hr, if_pos (List.mem_cons_of_mem f hr)]
      · rw [if_neg hr, retLookup_setPair]
        by_cases hf : s = f
        · rw [if_pos hf.symm, if_pos (hf ▸ List.mem_cons_self f rest)]
        · rw [if_neg (fun h => hf h.symm),
            if_neg (fun h => (List.mem_cons.1 h).elim hf hr)]

theorem keysNodup_applyFound {m : retMap} {found : List slug} {v : Bool}
    (h : (m.map Prod.fst).Nodup) :
    ((applyFound m found v).map Prod.fst).Nodup := by
  induction found generalizing m with
  | nil => exact h
  | cons f rest ih => exact ih (keysNodup_setPair h)

theorem retLookup_runQueries {st : mealie} {c : Nat}
    {qs : List queryAssignmentQuery} {m : retMap} {s : slug} :
    retLookup (runQueries st c m qs).1 s = qs.foldl (lwwStep st s) (retLookup m s) := by
  induction qs generalizing m with
  | nil => rfl
  | cons q rest ih =>
      rw [List.foldl_cons]
      by_cases hq : q.Mode = "add" ∨ q.Mode = "remove"
      · cases hgs : st.getSlugs q.Params with
        | error e =>
            have : (runQueries st c m (q :: rest)).1 = (runQueries st c m rest).1 := by
              simp [runQueries, hq, hgs]
            rw [this, ih, lwwStep, if_pos hq, hgs]
        | ok found =>
            have : (runQueries st c m (q :: rest)).1 =
                (runQueries st c (applyFound m found (decide (q.Mode = "add"))) rest).1 := by
              simp [runQueries, hq, hgs]
            rw [this, ih, lwwStep, if_pos hq, hgs, retLookup_applyFound]
      · have : (runQueries st c m (q :: rest)).1 = (runQueries st c m rest).1 := by
          simp [runQueries, hq]
        rw [this, ih, lwwStep, if_neg hq]

theorem keysNodup_runQueries {st : mealie} {c : Nat}
    {qs : List queryAssignmentQuery} {m : retMap}
    (h : (m.map Prod.fst).Nodup) :
    ((runQueries st c m qs).1.map Prod.fst).Nodup := by
  induction qs generalizing m with
  | nil => exact h
  | cons q rest ih =>
      by_cases hq : q.Mode = "add" ∨ q.Mode = "remove"
      · cases hgs : st.getSlugs q.Params with
        | error e =>
            have heq : (runQueries st c m (q :: rest)).1 = (runQueries st c m rest).1 := by
              simp [runQueries, hq, hgs]
            rw [heq]
            exact ih h
        | ok found =>
            have heq : (runQueries st c m (q :: rest)).1 =
                (runQueries st c (applyFound m found (decide (q.Mode = "add"))) rest).1 := by
              simp [runQueries, hq, hgs]
            rw [heq]
            exact ih (keysNodup_applyFound h)
      · have heq : (runQueries st c m (q :: rest)).1 = (runQueries st c m rest).1 := by
          simp [runQueries, hq]
        rw [heq]
        exact ih h

theorem runQueries_events {st : mealie} {c : Nat}
    {qs : List queryAssignmentQuery} {m : retMap} :
    (runQueries st c m qs).2 = queryEvents st c qs := by
  induction qs generalizing m with
  | nil => rfl
  | cons q rest ih =>
      by_cases hq : q.Mode = "add" ∨ q.Mode = "remove"
      · cases hgs : st.getSlugs q.Params with
        | error e => simp [runQueries, queryEvents, hq, hgs, ih]
        | ok found => simp [runQueries, queryEvents, hq, hgs, ih]
      · simp [runQueries, queryEvents, hq, ih]

theorem runQueries_append_map {st : mealie} {c : Nat}
    {xs ys : List queryAssignmentQuery} {m : retMap} :
    (runQueries st c m (xs ++ ys)).1 =
      (runQueries st c (runQueries st c m xs).1 ys).1 := by
  induction xs generalizing m with
  | nil => rfl
  | cons q rest ih =>
      by_cases hq : q.Mode = "add" ∨ q.Mode = "remove"
      · cases hgs : st.getSlugs q.Params with
        | error e => simp [runQueries, hq, hgs, ih]
        | ok found => simp [runQueries, hq, hgs, ih]
      · simp [runQueries, hq, ih]

theorem queryEvents_append {st : mealie} {c : Nat}
    {xs ys : List queryAssignmentQuery} :
    queryEvents st c (xs ++ ys) = queryEvents st c xs ++ queryEvents st c ys := by
  induction xs with
  | nil => rfl
  | cons q rest ih =>
      by_cases hq : q.Mode = "add" ∨ q.Mode = "remove"
      · simp [queryEvents, hq, ih]
      · simp [queryEvents, hq, ih]

theorem queryEvents_ctx {st : mealie} {c : Nat}
    {qs : List queryAssignmentQuery} :
    ∀ e ∈ queryEvents st c qs, e.isSearch = true ∧ e.ctxOf = c := by
  induction qs with
  | nil => intro e he; cases he
  | cons q rest ih =>
      intro e he
      by_cases hq : q.Mode = "add" ∨ q.Mode = "remove"
      · rw [queryEvents, if_pos hq] at he
        rcases List.mem_cons.1 he with rfl | he
        · exact ⟨rfl, rfl⟩
        · exact ih e he
      · rw [queryEvents, if_neg hq] at he
        exact ih e he

@[simp] theorem ctxOf_fetchTaxonomy {k : String} {c : Nat} :
    (extCall.fetchTaxonomy k c).ctxOf = c := rfl

@[simp] theorem ctxOf_searchQuery {p : List (String × String)} {c : Nat} :
    (extCall.searchQuery p c).ctxOf = c := rfl

@[simp] theorem ctxOf_fetchRecipe {s : String} {c : Nat} :
    (extCall.fetchRecipe s c).ctxOf = c := rfl

@[simp] theorem ctxOf_writeRecipe {r : recipe} {c : Nat} :
    (extCall.writeRecipe r c).ctxOf = c := rfl

theorem pairwise_of_forall_mem {α : Type} {R : α → α → Prop} :
    ∀ {l : List α}, (∀ x ∈ l, ∀ y ∈ l, R x y) → List.Pairwise R l := by
  intro l
  induction l with
  | nil => intro _; exact List.Pairwise.nil
  | cons a rest ih =>
      intro h
      refine List.pairwise_cons.2 ⟨?_, ?_⟩
      · intro b hb
        exact h a (List.mem_cons_self a rest) b (List.mem_cons_of_mem a hb)
      · exact ih (fun x hx y hy =>
          h x (List.mem_cons_of_mem a hx) y (List.mem_cons_of_mem a hy))

/-- Context discipline of the per-recipe loop: the counter never
decreases, every call is a non-search call whose context lies in the
consumed counter range, and the contexts strictly increase along the
trace (hence are pairwise distinct — every fetch and write has a fresh
context of its own). -/
theorem runRecipes_ctx (st : mealie) (ci ti : String → Option organiser)
    (a : queryAssignment) :
    ∀ (ss : List slug) (ctr : Nat),
      ctr ≤ (runRecipes st ci ti a ctr ss).1 ∧
      (∀ e ∈ (runRecipes st ci ti a ctr ss).2,
        e.isSearch = false ∧ ctr ≤ e.ctxOf ∧
          e.ctxOf < (runRecipes st ci ti a ctr ss).1) ∧
      List.Pairwise (fun e1 e2 => e1.ctxOf < e2.ctxOf)
        (runRecipes st ci ti a ctr ss).2 := by
  intro ss
  induction ss with
  | nil =>
      intro ctr
      refine ⟨Nat.le_refl _, ?_, ?_⟩
      · intro e he
        simp [runRecipes] at he
      · simp [runRecipes]
  | cons s rest ih =>
      intro ctr
      cases hrec : st.getRecipe s.Slug with
      | error err =>
          have heq : runRecipes st ci ti a ctr (s :: rest) =
              ((runRecipes st ci ti a (ctr + 1) rest).1,
               extCall.fetchRecipe s.Slug ctr ::
                 (runRecipes st ci ti a (ctr + 1) rest).2) := by
            simp [runRecipes, hrec]
          obtain ⟨ih1, ih2, ih3⟩ := ih (ctr + 1)
          rw [heq]
          refine ⟨Nat.le_trans (Nat.le_succ ctr) ih1, ?_, ?_⟩
          · intro e he
            rcases List.mem_cons.1 he with rfl | he
            · exact ⟨rfl, Nat.le_refl _, Nat.lt_of_lt_of_le (Nat.lt_succ_self ctr) ih1⟩
            · obtain ⟨h1, h2, h3⟩ := ih2 e he
              exact ⟨h1, Nat.le_trans (Nat.le_succ ctr) h2, h3⟩
          · refine List.pairwise_cons.2 ⟨?_, ih3⟩
            intro e he
            exact Nat.lt_of_lt_of_le (Nat.lt_succ_self ctr) (ih2 e he).2.1
      | ok r =>
          by_cases hch :
              ((processRecipe ci ti a r).2.1 || (processRecipe ci ti a r).2.2) = true
          · have heq : runRecipes st ci ti a ctr (s :: rest) =
                ((runRecipes st ci ti a (ctr + 2) rest).1,
                 extCall.fetchRecipe s.Slug ctr ::
                   extCall.writeRecipe (processRecipe ci ti a r).1 (ctr + 1) ::
                     (runRecipes st ci ti a (ctr + 2) rest).2) := by
              simp [runRecipes, hrec, hch]
            obtain ⟨ih1, ih2, ih3⟩ := ih (ctr + 2)
            rw [heq]
            have hc2 : ctr ≤ ctr + 2 := Nat.le_add_right ctr 2
            refine ⟨Nat.le_trans hc2 ih1, ?_, ?_⟩
            · intro e he
              rcases List.mem_cons.1 he with rfl | he
              · exact ⟨rfl, Nat.le_refl _,
                  Nat.lt_of_lt_of_le (by simp) ih1⟩
              rcases List.mem_cons.1 he with rfl | he
              · exact ⟨rfl, Nat.le_succ ctr,
                  Nat.lt_of_lt_of_le (by simp) ih1⟩
              · obtain ⟨h1, h2, h3⟩ := ih2 e he
                exact ⟨h1, Nat.le_trans hc2 h2, h3⟩
            · refine List.pairwise_cons.2 ⟨?_, ?_⟩
              · intro e he
                rcases List.mem_cons.1 he with rfl | he
                · exact Nat.lt_succ_self ctr
                · exact Nat.lt_of_lt_of_le (by simp) (ih2 e he).2.1
              · refine List.pairwise_cons.2 ⟨?_, ih3⟩
                intro e he
                exact Nat.lt_of_lt_of_le (by simp) (ih2 e he).2.1
          · have heq : runRecipes st ci ti a ctr (s :: rest) =
                ((runRecipes st ci ti a (ctr + 1) rest).1,
                 extCall.fetchRecipe s.Slug ctr ::
                   (runRecipes st ci ti a (ctr + 1) rest).2) := by
              simp [runRecipes, hrec, hch]
            obtain ⟨ih1, ih2, ih3⟩ := ih (ctr + 1)
            rw [heq]
            refine ⟨Nat.le_trans (Nat.le_succ ctr) ih1, ?_, ?_⟩
            · intro e he
              rcases List.mem_cons.1 he with rfl | he
              · exact ⟨rfl, Nat.le_refl _, Nat.lt_of_lt_of_le (Nat.lt_succ_self ctr) ih1⟩
              · obtain ⟨h1, h2, h3⟩ := ih2 e he
                exact ⟨h1, Nat.le_trans (Nat.le_succ ctr) h2, h3⟩
            · refine List.pairwise_cons.2 ⟨?_, ih3⟩
              intro e he
              exact Nat.lt_of_lt_of_le (Nat.lt_succ_self ctr) (ih2 e he).2.1

/-- An assignment passes validation iff every referenced name occurs
in the respective taxonomy name list. -/
theorem validateAssignment_true_iff {cn tn : List String}
    {a : queryAssignment} :
    validateAssignment cn tn a = true ↔
      (∀ c ∈ a.Categories.Set, c ∈ cn) ∧ (∀ c ∈ a.Categories.Unset, c ∈ cn) ∧
      (∀ t ∈ a.Tags.Set, t ∈ tn) ∧ (∀ t ∈ a.Tags.Unset, t ∈ tn) := by
  simp [validateAssignment, List.all_eq_true, and_assoc]

/-- An assignment is skipped iff one of its four name lists holds a
name missing from the taxonomy snapshot. -/
theorem validateAssignment_false_iff {cn tn : List String}
    {a : queryAssignment} :
    validateAssignment cn tn a = false ↔
      (∃ c ∈ a.Categories.Set, c ∉ cn) ∨ (∃ c ∈ a.Categories.Unset, c ∉ cn) ∨
      (∃ t ∈ a.Tags.Set, t ∉ tn) ∨ (∃ t ∈ a.Tags.Unset, t ∉ tn) := by
  rw [Bool.eq_false_iff, Ne, validateAssignment_true_iff]
  simp only [not_and_or]
  push_neg
  rfl

/-- A skipped assignment consumes no context and issues no calls. -/
theorem runAssignment_invalid {st : mealie} {cn tn : List String}
    {ci ti : String → Option organiser} {ctr : Nat} {a : queryAssignment}
    (h : validateAssignment cn tn a = false) :
    runAssignment st cn tn ci ti ctr a = (ctr, []) := by
  simp [runAssignment, h]

/-- Context discipline of one assignment: the counter never decreases,
every call's context lies in the consumed range, every search call
uses the single context allocated at the start of the assignment, and
any two distinct calls either are both searches or have different
contexts. -/
theorem runAssignment_ctx (st : mealie) (cn tn : List String)
    (ci ti : String → Option organiser) (a : queryAssignment) (ctr : Nat) :
    ctr ≤ (runAssignment st cn tn ci ti ctr a).1 ∧
    (∀ e ∈ (runAssignment st cn tn ci ti ctr a).2,
      ctr ≤ e.ctxOf ∧ e.ctxOf < (runAssignment st cn tn ci ti ctr a).1) ∧
    (∀ e ∈ (runAssignment st cn tn ci ti ctr a).2,
      e.isSearch = true → e.ctxOf = ctr) ∧
    List.Pairwise
      (fun e1 e2 => (e1.isSearch = true ∧ e2.isSearch = true) ∨ e1.ctxOf ≠ e2.ctxOf)
      (runAssignment st cn tn ci ti ctr a).2 := by
  by_cases hval : validateAssignment cn tn a = true
  · have heq : runAssignment st cn tn ci ti ctr a =
        ((runRecipes st ci ti a (ctr + 1)
            (resolveRetention (runQueries st ctr [] a.Queries).1)).1,
         queryEvents st ctr a.Queries ++
           (runRecipes st ci ti a (ctr + 1)
             (resolveRetention (runQueries st ctr [] a.Queries).1)).2) := by
      simp [runAssignment, hval, runQueries_events]
    obtain ⟨hr1, hr2, hr3⟩ := runRecipes_ctx st ci ti a
      (resolveRetention (runQueries st ctr [] a.Queries).1) (ctr + 1)
    rw [heq]
    refine ⟨Nat.le_trans (Nat.le_succ ctr) hr1, ?_, ?_, ?_⟩
    · intro e he
      rcases List.mem_append.1 he with he | he
      · obtain ⟨_, hc⟩ := queryEvents_ctx e he
        rw [hc]
        exact ⟨Nat.le_refl _, Nat.lt_of_lt_of_le (Nat.lt_succ_self ctr) hr1⟩
      · obtain ⟨_, h2, h3⟩ := hr2 e he
        exact ⟨Nat.le_trans (Nat.le_succ ctr) h2, h3⟩
    · intro e he _
      rcases List.mem_append.1 he with he | he
      · exact (queryEvents_ctx e he).2
      · exact absurd (hr2 e he).1 (by simp_all)
    · refine List.pairwise_append.2 ⟨?_, ?_, ?_⟩
      · refine pairwise_of_forall_mem ?_
        intro x hx y hy
        exact Or.inl ⟨(queryEvents_ctx x hx).1, (queryEvents_ctx y hy).1⟩
      · exact hr3.imp (fun h => Or.inr (Nat.ne_of_lt h))
      · intro e1 he1 e2 he2
        refine Or.inr ?_
        rw [(queryEvents_ctx e1 he1).2]
        exact Nat.ne_of_lt (Nat.lt_of_lt_of_le (Nat.lt_succ_self ctr) (hr2 e2 he2).2.1)
  · have hval' : validateAssignment cn tn a = false := by
      simpa using hval
    rw [runAssignment_invalid hval']
    refine ⟨Nat.le_refl _, ?_, ?_, List.Pairwise.nil⟩
    · intro e he
      cases he
    · intro e he
      cases he

/-- Context discipline across the assignments of one cycle: every call
of every trace lies at or above the starting counter, each trace obeys
the per-assignment discipline, and calls of two different assignments
never share a context. -/
theorem runAssignments_ctx (st : mealie) (cn tn : List String)
    (ci ti : String → Option organiser) :
    ∀ (asgs : List queryAssignment) (ctr : Nat),
      (∀ t ∈ runAssignments st cn tn ci ti ctr asgs, ∀ e ∈ t, ctr ≤ e.ctxOf) ∧
      (∀ t ∈ runAssignments st cn tn ci ti ctr asgs,
        List.Pairwise
          (fun e1 e2 =>
            (e1.isSearch = true ∧ e2.isSearch = true) ∨ e1.ctxOf ≠ e2.ctxOf) t ∧
        (∀ e1 ∈ t, ∀ e2 ∈ t,
          e1.isSearch = true → e2.isSearch = true → e1.ctxOf = e2.ctxOf)) ∧
      List.Pairwise (fun t1 t2 => ∀ e1 ∈ t1, ∀ e2 ∈ t2, e1.ctxOf ≠ e2.ctxOf)
        (runAssignments st cn tn ci ti ctr asgs) := by
  intro asgs
  induction asgs with
  | nil =>
      intro ctr
      refine ⟨?_, ?_, List.Pairwise.nil⟩
      · intro t ht
        cases ht
      · intro t ht
        cases ht
  | cons a rest ih =>
      intro ctr
      have heq : runAssignments st cn tn ci ti ctr (a :: rest) =
          (runAssignment st cn tn ci ti ctr a).2 ::
            runAssignments st cn tn ci ti (runAssignment st cn tn ci ti ctr a).1 rest := by
        simp [runAssignments]
      obtain ⟨ha1, ha2, ha3, ha4⟩ := runAssignment_ctx st cn tn ci ti a ctr
      obtain ⟨ih1, ih2, ih3⟩ := ih (runAssignment st cn tn ci ti ctr a).1
      rw [heq]
      refine ⟨?_, ?_, ?_⟩
      · intro t ht e he
        rcases List.mem_cons.1 ht with rfl | ht
        · exact (ha2 e he).1
        · exact Nat.le_trans ha1 (ih1 t ht e he)
      · intro t ht
        rcases List.mem_cons.1 ht with rfl | ht
        · refine ⟨ha4, ?_⟩
          intro e1 he1 e2 he2 hs1 hs2
          rw [ha3 e1 he1 hs1, ha3 e2 he2 hs2]
        · exact ih2 t ht
      · refine List.pairwise_cons.2 ⟨?_, ih3⟩
        intro t ht e1 he1 e2 he2
        exact Nat.ne_of_lt
          (Nat.lt_of_lt_of_le (ha2 e1 he1).2 (ih1 t ht e2 he2))

/-- Removing an invalid assignment changes nothing in the flattened
cycle trace: the invalid assignment consumes no context, so the other
assignments run identically. -/
theorem runAssignments_skip {st : mealie} {cn tn : List String}
    {ci ti : String → Option organiser} {bad : queryAssignment}
    (hbad : validateAssignment cn tn bad = false) :
    ∀ (l1 l2 : List queryAssignment) (ctr : Nat),
      (runAssignments st cn tn ci ti ctr (l1 ++ bad :: l2)).flatten =
        (runAssignments st cn tn ci ti ctr (l1 ++ l2)).flatten := by
  intro l1
  induction l1 with
  | nil =>
      intro l2 ctr
      simp [runAssignments, runAssignment_invalid hbad]
  | cons a l1 ih =>
      intro l2 ctr
      have h1 : (a :: l1) ++ bad :: l2 = a :: (l1 ++ bad :: l2) := rfl
      have h2 : (a :: l1) ++ l2 = a :: (l1 ++ l2) := rfl
      rw [h1, h2]
      have hu : ∀ (xs : List queryAssignment),
          runAssignments st cn tn ci ti ctr (a :: xs) =
            (runAssignment st cn tn ci ti ctr a).2 ::
              runAssignments st cn tn ci ti (runAssignment st cn tn ci ti ctr a).1 xs := by
        intro xs
        simp [runAssignments]
      rw [hu, hu, List.flatten_cons, List.flatten_cons, ih]

theorem updateSlice_idem_mem {T : Type} [DecidableEq T] (o a r : List T) :
    ∀ x, x ∈ (updateSlice (updateSlice o a r).1 a r).1 ↔ x ∈ (updateSlice o a r).1 := by
  intro x
  simp only [updateSlice_mem]
  tauto

theorem updateSlice_second_changed {T : Type} [DecidableEq T] (o a r : List T) :
    (updateSlice (updateSlice o a r).1 a r).2 = true ↔ ∃ x ∈ a, x ∈ r := by
  rw [updateSlice_changed]
  constructor
  · rintro (⟨x, hxa, hxs⟩ | ⟨x, hxr, hxs⟩)
    · refine ⟨x, hxa, ?_⟩
      by_contra hxr
      exact hxs (updateSlice_mem.2 ⟨Or.inr hxa, hxr⟩)
    · rcases hxs with hx1 | hx1
      · exact absurd hxr (updateSlice_mem.1 hx1).2
      · exact ⟨x, hx1, hxr⟩
  · rintro ⟨x, hxa, hxr⟩
    exact Or.inl ⟨x, hxa, fun hs => (updateSlice_mem.1 hs).2 hxr⟩

/-- C1 (counterexample): adding and then removing the same absent
term leaves the collection set-equal to the original — here the empty
collection stays empty — yet `updateSlice` reports `wasChanged = true`,
so the `changed` boolean is not equivalent to set inequality and a
write-back can be issued with no actual set change. -/
theorem c1_change_detection_cex :
    (updateSlice ([] : List organiser) [orgA] [orgA]).2 = true ∧
    (updateSlice ([] : List organiser) [orgA] [orgA]).1 = ([] : List organiser) := by
  decide

/-- C1 (amended): the per-collection `changed` boolean is true iff the
addition phase inserted a term absent from the original collection or
the removal phase deleted a term present in the original-plus-added
collection.  This over-approximates set inequality: a genuine set
change always yields `changed = true` (conjuncts 3 and 4), but
`changed` can also be true when an added term is removed again.  The
write-back call is issued iff at least one of the two booleans is set
(conjunct 5). -/
theorem c1_change_detection_amended :
    ∀ (catIdx tagIdx : String → Option organiser) (a : queryAssignment) (r : recipe),
      ((processRecipe catIdx tagIdx a r).2.1 = true ↔
        (∃ x ∈ indexedSlice catIdx a.Categories.Set, x ∉ r.Categories) ∨
        (∃ x ∈ indexedSlice catIdx a.Categories.Unset,
          x ∈ r.Categories ∨ x ∈ indexedSlice catIdx a.Categories.Set)) ∧
      ((processRecipe catIdx tagIdx a r).2.2 = true ↔
        (∃ x ∈ indexedSlice tagIdx a.Tags.Set, x ∉ r.Tags) ∨
        (∃ x ∈ indexedSlice tagIdx a.Tags.Unset,
          x ∈ r.Tags ∨ x ∈ indexedSlice tagIdx a.Tags.Set)) ∧
      ((∃ x, ¬ (x ∈ (processRecipe catIdx tagIdx a r).1.Categories ↔ x ∈ r.Categories)) →
        (processRecipe catIdx tagIdx a r).2.1 = true) ∧
      ((∃ x, ¬ (x ∈ (processRecipe catIdx tagIdx a r).1.Tags ↔ x ∈ r.Tags)) →
        (processRecipe catIdx tagIdx a r).2.2 = true) ∧
      (∀ (st : mealie) (ctr : Nat) (s : slug),
        st.getRecipe s.Slug = Except.ok r →
        ((runRecipes st catIdx tagIdx a ctr [s]).2.any (fun e => e.isWrite)) =
          ((processRecipe catIdx tagIdx a r).2.1 || (processRecipe catIdx tagIdx a r).2.2)) := by
  intro catIdx tagIdx a r
  refine ⟨updateSlice_changed, updateSlice_changed, ?_, ?_, ?_⟩
  · intro hex
    by_contra hch
    have hf : (processRecipe catIdx tagIdx a r).2.1 = false := by
      simpa using hch
    obtain ⟨x, hx⟩ := hex
    exact hx (updateSlice_mem_of_unchanged hf x)
  · intro hex
    by_contra hch
    have hf : (processRecipe catIdx tagIdx a r).2.2 = false := by
      simpa using hch
    obtain ⟨x, hx⟩ := hex
    exact hx (updateSlice_mem_of_unchanged hf x)
  · intro st ctr s hrec
    by_cases hch :
        ((processRecipe catIdx tagIdx a r).2.1 || (processRecipe catIdx tagIdx a r).2.2) = true
    · rw [hch]
      simp [runRecipes, hrec, hch, extCall.isWrite]
    · have hch' :
          ((processRecipe catIdx tagIdx a r).2.1 || (processRecipe catIdx tagIdx a r).2.2) = false := by
        simpa using hch
      rw [hch']
      simp [runRecipes, hrec, hch', extCall.isWrite]

/-- C1 (witness): with taxonomy `[orgA]`, the assignment that sets and
unsets `a` triggers a write-back exactly per the flags, and for the
assignment that only sets `a` on a recipe with no categories, a real
set change forces `changed = true`. -/
theorem c1_change_detection_witness :
    (((runRecipes stOk (buildIndex [orgA]) (buildIndex []) asgSetUnsetA 0
        [⟨"r1"⟩]).2.any (fun e => e.isWrite)) =
      ((processRecipe (buildIndex [orgA]) (buildIndex []) asgSetUnsetA
          ⟨"r1", [], []⟩).2.1 ||
        (processRecipe (buildIndex [orgA]) (buildIndex []) asgSetUnsetA
          ⟨"r1", [], []⟩).2.2)) ∧
    (processRecipe (buildIndex [orgA]) (buildIndex []) asgSetA ⟨"r1", [], []⟩).2.1 = true :=
  ⟨(c1_change_detection_amended (buildIndex [orgA]) (buildIndex []) asgSetUnsetA
      ⟨"r1", [], []⟩).2.2.2.2 stOk 0 ⟨"r1"⟩ rfl,
   (c1_change_detection_amended (buildIndex [orgA]) (buildIndex []) asgSetA
      ⟨"r1", [], []⟩).2.2.1 ⟨orgA, by decide⟩⟩

/-- C2 (counterexample): an assignment that both sets and unsets
category `a` yields `changed = true` again on the second application
(the term is re-added and re-removed each time), so the second
application is not a no-op as claimed and a second write-back is
triggered. -/
theorem c2_idempotence_cex :
    (processRecipe (buildIndex [orgA]) (buildIndex []) asgSetUnsetA
      ((processRecipe (buildIndex [orgA]) (buildIndex []) asgSetUnsetA
        ⟨"r1", [], []⟩).1)).2.1 = true := by
  decide

/-- C2 (amended): applying an assignment twice always leaves the
category and tag sets of the second result identical to those of the
first (conjuncts 1-2), and the second application reports
`changed = false` — hence no write-back — iff the resolved set and
unset lists are disjoint, for categories and tags respectively
(conjuncts 3-5).  With overlapping set/unset lists the second
application reports `changed = true` even though the sets are
unchanged. -/
theorem c2_idempotence_amended :
    ∀ (catIdx tagIdx : String → Option organiser) (a : queryAssignment) (r : recipe),
      (∀ x, x ∈ (processRecipe catIdx tagIdx a
          (processRecipe catIdx tagIdx a r).1).1.Categories ↔
        x ∈ (processRecipe catIdx tagIdx a r).1.Categories) ∧
      (∀ x, x ∈ (processRecipe catIdx tagIdx a
          (processRecipe catIdx tagIdx a r).1).1.Tags ↔
        x ∈ (processRecipe catIdx tagIdx a r).1.Tags) ∧
      ((processRecipe catIdx tagIdx a (processRecipe catIdx tagIdx a r).1).2.1 = true ↔
        ∃ x ∈ indexedSlice catIdx a.Categories.Set,
          x ∈ indexedSlice catIdx a.Categories.Unset) ∧
      ((processRecipe catIdx tagIdx a (processRecipe catIdx tagIdx a r).1).2.2 = true ↔
        ∃ x ∈ indexedSlice tagIdx a.Tags.Set, x ∈ indexedSlice tagIdx a.Tags.Unset) ∧
      ((∀ x ∈ indexedSlice catIdx a.Categories.Set,
          x ∉ indexedSlice catIdx a.Categories.Unset) →
       (∀ x ∈ indexedSlice tagIdx a.Tags.Set, x ∉ indexedSlice tagIdx a.Tags.Unset) →
        (processRecipe catIdx tagIdx a (processRecipe catIdx tagIdx a r).1).2.1 = false ∧
        (processRecipe catIdx tagIdx a (processRecipe catIdx tagIdx a r).1).2.2 = false) := by
  intro catIdx tagIdx a r
  refine ⟨updateSlice_idem_mem _ _ _, updateSlice_idem_mem _ _ _,
    updateSlice_second_changed _ _ _, updateSlice_second_changed _ _ _, ?_⟩
  intro hc ht
  have h3 : ((processRecipe catIdx tagIdx a
      (processRecipe catIdx tagIdx a r).1).2.1 = true ↔
        ∃ x ∈ indexedSlice catIdx a.Categories.Set,
          x ∈ indexedSlice catIdx a.Categories.Unset) :=
    updateSlice_second_changed _ _ _
  have h4 : ((processRecipe catIdx tagIdx a
      (processRecipe catIdx tagIdx a r).1).2.2 = true ↔
        ∃ x ∈ indexedSlice tagIdx a.Tags.Set,
          x ∈ indexedSlice tagIdx a.Tags.Unset) :=
    updateSlice_second_changed _ _ _
  constructor
  · rw [Bool.eq_false_iff, Ne, h3]
    rintro ⟨x, hx1, hx2⟩
    exact hc x hx1 hx2
  · rw [Bool.eq_false_iff, Ne, h4]
    rintro ⟨x, hx1, hx2⟩
    exact ht x hx1 hx2

/-- C2 (witness): for the assignment that only sets `a` (disjoint set
and unset lists) the second application reports no change for either
collection. -/
theorem c2_idempotence_witness :
    (processRecipe (buildIndex [orgA]) (buildIndex []) asgSetA
      ((processRecipe (buildIndex [orgA]) (buildIndex []) asgSetA
        ⟨"r1", [], []⟩).1)).2.1 = false ∧
    (processRecipe (buildIndex [orgA]) (buildIndex []) asgSetA
      ((processRecipe (buildIndex [orgA]) (buildIndex []) asgSetA
        ⟨"r1", [], []⟩).1)).2.2 = false :=
  (c2_idempotence_amended (buildIndex [orgA]) (buildIndex []) asgSetA
    ⟨"r1", [], []⟩).2.2.2.2 (by decide) (by decide)

/-- C3 (counterexample): membership is decided by equality of the
whole `organiser` value, not by name equality — unsetting the
taxonomy's term named `a` fails to remove a recipe term that carries
the same name with a different id/slug/kind, while the spec's
name-equality semantics would remove it. -/
theorem c3_name_equality_cex :
    (updateSlice [recCatA] ([] : List organiser) [orgA]).1 = [recCatA] ∧
    updateByNameSpec [recCatA] [] [orgA] = [] ∧
    recCatA.Name = orgA.Name ∧ recCatA ≠ orgA := by
  decide

/-- C3 (amended): the new category collection is exactly
`(current ∪ resolved(set_names)) \ resolved(unset_names)` — and
analogously for tags — as duplicate-free sets under whole-term
equality (all `organiser` fields), with insertion order irrelevant;
name equality governs only the resolution of set/unset names through
the taxonomy index, not collection membership. -/
theorem c3_update_formula_amended :
    ∀ (catIdx tagIdx : String → Option organiser) (a : queryAssignment) (r : recipe),
      (∀ x, x ∈ (processRecipe catIdx tagIdx a r).1.Categories ↔
        ((x ∈ r.Categories ∨ x ∈ indexedSlice catIdx a.Categories.Set) ∧
          x ∉ indexedSlice catIdx a.Categories.Unset)) ∧
      (∀ x, x ∈ (processRecipe catIdx tagIdx a r).1.Tags ↔
        ((x ∈ r.Tags ∨ x ∈ indexedSlice tagIdx a.Tags.Set) ∧
          x ∉ indexedSlice tagIdx a.Tags.Unset)) ∧
      (processRecipe catIdx tagIdx a r).1.Categories.Nodup ∧
      (processRecipe catIdx tagIdx a r).1.Tags.Nodup := by
  intro catIdx tagIdx a r
  exact ⟨fun x => updateSlice_mem, fun x => updateSlice_mem,
    updateSlice_nodup, updateSlice_nodup⟩

/-- C4: queries are evaluated in declared order and the retention
value of every slug equals the decision of the last `add`/`remove`
query that matched it (conjunct 1); the resolved working set is
exactly the slugs whose final value is true — slugs set to false or
never mentioned are excluded (conjunct 2); in particular for queries
`[{matches A, add}, {matches A ∩ B, remove}]` the working set is
`A \ B` (conjunct 3). -/
theorem c4_last_write_wins :
    ∀ (st : mealie) (c : Nat) (qs : List queryAssignmentQuery) (s : slug),
      (retLookup (runQueries st c [] qs).1 s = lastWriteWins st qs s) ∧
      (s ∈ resolveRetention (runQueries st c [] qs).1 ↔
        lastWriteWins st qs s = some true) ∧
      (∀ (q1 q2 : queryAssignmentQuery) (A AB B : List slug),
        q1.Mode = "add" → q2.Mode = "remove" →
        st.getSlugs q1.Params = Except.ok A →
        st.getSlugs q2.Params = Except.ok AB →
        (∀ x, x ∈ AB ↔ x ∈ A ∧ x ∈ B) →
        (s ∈ resolveRetention (runQueries st c [] [q1, q2]).1 ↔
          s ∈ A ∧ s ∉ B)) := by
  intro st c qs s
  have hmain : ∀ (qs' : List queryAssignmentQuery),
      retLookup (runQueries st c [] qs').1 s = lastWriteWins st qs' s := by
    intro qs'
    rw [retLookup_runQueries]
    rfl
  have hmem : ∀ (qs' : List queryAssignmentQuery),
      s ∈ resolveRetention (runQueries st c [] qs').1 ↔
        lastWriteWins st qs' s = some true := by
    intro qs'
    rw [mem_resolveRetention (keysNodup_runQueries (by simp)), hmain]
  refine ⟨hmain qs, hmem qs, ?_⟩
  intro q1 q2 A AB B h1 h2 hA hAB hABspec
  rw [hmem [q1, q2]]
  have hs1 : lwwStep st s none q1 = (if s ∈ A then some true else none) := by
    rw [lwwStep, if_pos (Or.inl h1), hA, h1]
    simp
  have hs2 : ∀ acc, lwwStep st s acc q2 = (if s ∈ AB then some false else acc) := by
    intro acc
    rw [lwwStep, if_pos (Or.inr h2), hAB, h2]
    simp
  have hlw : lastWriteWins st [q1, q2] s =
      (if s ∈ AB then some false else if s ∈ A then some true else none) := by
    show lwwStep st s (lwwStep st s none q1) q2 = _
    rw [hs1, hs2]
  rw [hlw]
  by_cases hsAB : s ∈ AB
  · rw [if_pos hsAB]
    constructor
    · intro h
      exact absurd h (by simp)
    · rintro ⟨_, hsB⟩
      exact absurd ((hABspec s).1 hsAB).2 hsB
  · rw [if_neg hsAB]
    by_cases hsA : s ∈ A
    · rw [if_pos hsA]
      constructor
      · intro _
        exact ⟨hsA, fun hsB => hsAB ((hABspec s).2 ⟨hsA, hsB⟩)⟩
      · intro _
        rfl
    · rw [if_neg hsA]
      constructor
      · intro h
        exact absurd h (by simp)
      · rintro ⟨hsA', _⟩
        exact absurd hsA' hsA

/-- C4 (witness): with queries matching `{s1, s2}` (add) and `{s2}`
(remove), slug `s1` is retained iff it is in the first match set and
not in `{s2}`. -/
theorem c4_last_write_wins_witness :
    (⟨"s1"⟩ : slug) ∈ resolveRetention (runQueries stAB 0 [] [qAdd1, qRem2]).1 ↔
      (⟨"s1"⟩ : slug) ∈ [(⟨"s1"⟩ : slug), ⟨"s2"⟩] ∧
        (⟨"s1"⟩ : slug) ∉ [(⟨"s2"⟩ : slug)] :=
  (c4_last_write_wins stAB 0 [qAdd1, qRem2] ⟨"s1"⟩).2.2 qAdd1 qRem2
    [⟨"s1"⟩, ⟨"s2"⟩] [⟨"s2"⟩] [⟨"s2"⟩] rfl rfl (by simp [stAB, qAdd1])
    (by simp [stAB, qRem2])
    (fun x => ⟨fun h => ⟨List.mem_cons_of_mem _ h, h⟩, fun h => h.2⟩)

/-- C5: the wait before the next cycle is exactly
`max(repeat_interval - cycle_duration, 0)`, and whenever the cycle
took at least the repeat interval the next wait is zero (the next
cycle starts immediately). -/
theorem c5_drift_compensation :
    ∀ (st : mealie) (asgs : List queryAssignment) (repeatTime timePassed : Int),
      (loopIteration st asgs repeatTime timePassed).2 =
        max (repeatTime - timePassed) 0 ∧
      (repeatTime ≤ timePassed →
        (loopIteration st asgs repeatTime timePassed).2 = 0) := by
  intro st asgs R T
  refine ⟨rfl, ?_⟩
  intro h
  show nextWaitTime R T = 0
  rw [nextWaitTime]
  exact max_eq_right (sub_nonpos.2 h)

/-- C5 (witness): a 5-unit interval against a 7-unit cycle waits 0. -/
theorem c5_drift_compensation_witness :
    (loopIteration stOk [] 5 7).2 = 0 :=
  (c5_drift_compensation stOk [] 5 7).2 (by norm_num)

/-- C8: if either taxonomy fetch fails, the cycle performs exactly the
two taxonomy fetch calls and nothing else — no assignment is
validated, evaluated or applied — while the loop iteration still
returns and schedules the next cycle with the normal wait (conjunct
1); and the pagination loop of `getOrganisers` returns the error of
any failing page fetch (conjunct 2). -/
theorem c8_taxonomy_failure_skips_cycle :
    (∀ (st : mealie) (asgs : List queryAssignment)
        (repeatTime timePassed : Int) (e : String),
      (st.getOrganisers "categories" = Except.error e ∨
        st.getOrganisers "tags" = Except.error e) →
      loopIteration st asgs repeatTime timePassed =
        ([extCall.fetchTaxonomy "categories" 0, extCall.fetchTaxonomy "tags" 1],
         nextWaitTime repeatTime timePassed)) ∧
    (∀ (resp : Int → Except String organisersResponse) (fuel : Nat)
        (page lastPage : Int) (acc : List organiser) (e : String),
      page ≤ lastPage → resp page = Except.error e →
      getOrganisersLoop resp (fuel + 1) page lastPage acc = Except.error e) := by
  constructor
  · intro st asgs R T e h
    rcases h with h | h
    · cases h2 : st.getOrganisers "tags" <;>
        simp [loopIteration, runCycle, h, h2]
    · cases h2 : st.getOrganisers "categories" <;>
        simp [loopIteration, runCycle, h, h2]
  · intro resp fuel page lastPage acc e hpl hresp
    simp [getOrganisersLoop, hpl, hresp]

/-- C8 (witness): a store whose taxonomy fetches fail yields a cycle
with only the two fetch calls and the standard next wait, and a
failing first page aborts the pagination loop with that error. -/
theorem c8_taxonomy_failure_witness :
    loopIteration stErr [asgSetA] 5 3 =
      ([extCall.fetchTaxonomy "categories" 0, extCall.fetchTaxonomy "tags" 1],
       nextWaitTime 5 3) ∧
    getOrganisersLoop (fun _ => Except.error "nope") 1 1 10 [] =
      Except.error "nope" :=
  ⟨c8_taxonomy_failure_skips_cycle.1 stErr [asgSetA] 5 3 "boom" (Or.inl rfl),
   c8_taxonomy_failure_skips_cycle.2 (fun _ => Except.error "nope") 0 1 10 []
     "nope" (by norm_num) rfl⟩

/-- C10: with an empty assignments list `launchAssignmentLoop` starts
no background loop and returns a nil handle and nil error; and the
returned handle is nil exactly when no loop was started, i.e. exactly
when the assignments list is empty. -/
theorem c10_empty_assignments :
    ∀ qa : queryAssignments,
      (qa.Assignments = [] → launchAssignmentLoop qa = ⟨none, none, 0⟩) ∧
      ((launchAssignmentLoop qa).handle = none ↔
        (launchAssignmentLoop qa).loopsStarted = 0) ∧
      ((launchAssignmentLoop qa).handle = none ↔ qa.Assignments = []) ∧
      (launchAssignmentLoop qa).err = none := by
  intro qa
  by_cases h : qa.Assignments.isEmpty
  · have h' : qa.Assignments = [] := by simpa using h
    simp [launchAssignmentLoop, h, h']
  · have h' : ¬ qa.Assignments = [] := by simpa using h
    simp [launchAssignmentLoop, h, h']

/-- C10 (witness): the empty configuration yields the nil handle, nil
error and zero started loops. -/
theorem c10_empty_assignments_witness :
    launchAssignmentLoop ⟨0, 0, []⟩ = ⟨none, none, 0⟩ :=
  (c10_empty_assignments ⟨0, 0, []⟩).1 rfl

/-- C9: a query whose search call fails contributes nothing to the
retention map — the map equals the one obtained with that query
removed, so all other queries of the assignment still contribute
(conjunct 1) — while the failing query's search call is still issued
and every remaining query is still executed in order (conjunct 2). -/
theorem c9_query_failure_isolated :
    ∀ (st : mealie) (c : Nat) (m : retMap) (l1 l2 : List queryAssignmentQuery)
      (q : queryAssignmentQuery) (e : String),
      (q.Mode = "add" ∨ q.Mode = "remove") →
      st.getSlugs q.Params = Except.error e →
      ((runQueries st c m (l1 ++ q :: l2)).1 =
        (runQueries st c m (l1 ++ l2)).1) ∧
      ((runQueries st c m (l1 ++ q :: l2)).2 =
        queryEvents st c l1 ++
          extCall.searchQuery q.Params c :: queryEvents st c l2) := by
  intro st c m l1 l2 q e hq hgs
  constructor
  · rw [runQueries_append_map, runQueries_append_map]
    simp [runQueries, hq, hgs]
  · have hstep : queryEvents st c (q :: l2) =
        extCall.searchQuery q.Params c :: queryEvents st c l2 := by
      simp [queryEvents, hq]
    rw [runQueries_events, queryEvents_append, hstep]

/-- C9 (witness): with the first query failing, the retention map
equals the one of the second query alone, and both search calls are
still issued. -/
theorem c9_query_failure_witness :
    ((runQueries stFail1 0 [] [qAdd1, qAdd2]).1 =
      (runQueries stFail1 0 [] [qAdd2]).1) ∧
    ((runQueries stFail1 0 [] [qAdd1, qAdd2]).2 =
      queryEvents stFail1 0 [] ++
        extCall.searchQuery qAdd1.Params 0 :: queryEvents stFail1 0 [qAdd2]) :=
  c9_query_failure_isolated stFail1 0 [] [] [qAdd2] qAdd1 "down" (Or.inl rfl)
    (by simp [stFail1, qAdd1])

/-- C6: an assignment with a name missing from the cycle's taxonomy
snapshot is skipped entirely — the cycle's call trace equals the trace
without that assignment, so it executes no store queries and produces
zero mutations, and every other assignment runs identically (conjunct
1, conjunct 2); validation fails exactly when some name of the four
set/unset lists is missing (conjunct 3). -/
theorem c6_validation_gating :
    ∀ (st : mealie) (cats tags : List organiser)
      (l1 l2 : List queryAssignment) (bad : queryAssignment),
      st.getOrganisers "categories" = Except.ok cats →
      st.getOrganisers "tags" = Except.ok tags →
      validateAssignment (cats.map organiser.Name) (tags.map organiser.Name)
        bad = false →
      (runCycle st (l1 ++ bad :: l2) = runCycle st (l1 ++ l2)) ∧
      (∀ (ctr : Nat),
        runAssignment st (cats.map organiser.Name) (tags.map organiser.Name)
          (buildIndex cats) (buildIndex tags) ctr bad = (ctr, [])) ∧
      (validateAssignment (cats.map organiser.Name) (tags.map organiser.Name)
          bad = false ↔
        (∃ nm ∈ bad.Categories.Set, nm ∉ cats.map organiser.Name) ∨
        (∃ nm ∈ bad.Categories.Unset, nm ∉ cats.map organiser.Name) ∨
        (∃ nm ∈ bad.Tags.Set, nm ∉ tags.map organiser.Name) ∨
        (∃ nm ∈ bad.Tags.Unset, nm ∉ tags.map organiser.Name)) := by
  intro st cats tags l1 l2 bad hcats htags hbad
  refine ⟨?_, fun ctr => runAssignment_invalid hbad, validateAssignment_false_iff⟩
  simp only [runCycle, hcats, htags]
  rw [cycleTraces, cycleTraces, runAssignments_skip hbad l1 l2 2]

/-- C6 (witness): with an empty taxonomy, an assignment referencing
the unknown tag `zz` is dropped from the cycle without affecting the
remaining assignment. -/
theorem c6_validation_gating_witness :
    runCycle stOk ([] ++ asgBadTag :: [asgTwoQueries]) =
      runCycle stOk ([] ++ [asgTwoQueries]) :=
  (c6_validation_gating stOk [] [] [] [asgTwoQueries] asgBadTag rfl rfl
    (by decide)).1

/-- C7 (counterexample): the two search calls of one assignment are
distinct external calls issued under the same context — context 2,
created once for the whole query loop — so not every external call
gets its own fresh deadline. -/
theorem c7_fresh_deadline_cex :
    runCycle stOk [asgTwoQueries] =
      [extCall.fetchTaxonomy "categories" 0, extCall.fetchTaxonomy "tags" 1,
       extCall.searchQuery [("f", "1")] 2, extCall.searchQuery [("f", "2")] 2] ∧
    (extCall.searchQuery [("f", "1")] 2).ctxOf =
      (extCall.searchQuery [("f", "2")] 2).ctxOf ∧
    extCall.searchQuery [("f", "1")] 2 ≠ extCall.searchQuery [("f", "2")] 2 := by
  refine ⟨by decide, rfl, by decide⟩

/-- C7 (amended): the two taxonomy fetches use the fresh contexts 0
and 1; every assignment's calls use contexts from 2 on (conjuncts 1-2);
within one assignment all query-search calls share the single context
allocated for that assignment while any other pair of distinct calls
(recipe fetches and writes) have different contexts (conjunct 3); and
calls of different assignments never share a context (conjunct 4). -/
theorem c7_context_discipline_amended :
    ∀ (st : mealie) (cats tags : List organiser) (asgs : List queryAssignment),
      st.getOrganisers "categories" = Except.ok cats →
      st.getOrganisers "tags" = Except.ok tags →
      (runCycle st asgs =
        extCall.fetchTaxonomy "categories" 0 :: extCall.fetchTaxonomy "tags" 1 ::
          (cycleTraces st cats tags asgs).flatten) ∧
      (∀ t ∈ cycleTraces st cats tags asgs, ∀ e ∈ t, 2 ≤ e.ctxOf) ∧
      (∀ t ∈ cycleTraces st cats tags asgs,
        List.Pairwise (fun e1 e2 =>
          (e1.isSearch = true ∧ e2.isSearch = true) ∨ e1.ctxOf ≠ e2.ctxOf) t ∧
        (∀ e1 ∈ t, ∀ e2 ∈ t, e1.isSearch = true → e2.isSearch = true →
          e1.ctxOf = e2.ctxOf)) ∧
      List.Pairwise (fun t1 t2 => ∀ e1 ∈ t1, ∀ e2 ∈ t2, e1.ctxOf ≠ e2.ctxOf)
        (cycleTraces st cats tags asgs) := by
  intro st cats tags asgs hcats htags
  obtain ⟨h1, h2, h3⟩ := runAssignments_ctx st (cats.map organiser.Name)
    (tags.map organiser.Name) (buildIndex cats) (buildIndex tags) asgs 2
  exact ⟨by simp [runCycle, hcats, htags], h1, h2, h3⟩

/-- C7 (witness): the discipline holds for the concrete two-query
cycle of the counterexample. -/
theorem c7_context_discipline_witness :
    (runCycle stOk [asgTwoQueries] =
      extCall.fetchTaxonomy "categories" 0 :: extCall.fetchTaxonomy "tags" 1 ::
        (cycleTraces stOk [] [] [asgTwoQueries]).flatten) ∧
    List.Pairwise (fun t1 t2 => ∀ e1 ∈ t1, ∀ e2 ∈ t2, e1.ctxOf ≠ e2.ctxOf)
      (cycleTraces stOk [] [] [asgTwoQueries]) :=
  ⟨(c7_context_discipline_amended stOk [] [] [asgTwoQueries] rfl rfl).1,
   (c7_context_discipline_amended stOk [] [] [asgTwoQueries] rfl rfl).2.2.2⟩

end MealieAddons
